import Mathlib

/-!
Formal model of the magnetic integral-equation simulation
(`simpeg/potential_fields/magnetics/simulation.py`, class `Simulation3DIntegral`).

Vectors are modelled as functions `ℕ → ℚ` and matrices as `ℕ → ℕ → ℚ`
(exact rational arithmetic stands in for floating point, since every claim is
stated only up to floating-point reassociation).  The per-(receiver, cell)
prism kernel evaluation performed by the numba backend functions is kept
abstract: theorems quantify over an arbitrary kernel
`K : groupIdx → componentIdx → receiverIdx → column → ℚ`, which is shared by
all code paths exactly as the actual kernels are.
-/

namespace MagSim

/-- A receiver group of the survey: an ordered list of requested component
names shared by `nRec` receivers.  This is the unit yielded by
`_get_components_and_receivers()`. -/
structure ReceiverGroup where
  components : List String
  nRec : ℕ

/-- Number of requested components of the group
(`n_components = len(components)`). -/
def ReceiverGroup.nComp (g : ReceiverGroup) : ℕ := g.components.length

/-- Rows contributed by one receiver group
(`n_rows = n_components * receivers.shape[0]`). -/
def groupRows (g : ReceiverGroup) : ℕ := g.nComp * g.nRec

/-- Total datum count of the survey (`survey.nD`): sum of the row counts of
all receiver groups. -/
def surveyND : List ReceiverGroup → ℕ
  | [] => 0
  | g :: rest => groupRows g + surveyND rest

/-- Rows of all receiver groups preceding group `k`: the value of
`index_offset` at the moment group `k` is processed by the loops of
`_forward`, `_sensitivity_matrix` and
`_sensitivity_matrix_transpose_dot_vec`. -/
def offsetOf : List ReceiverGroup → ℕ → ℕ
  | _, 0 => 0
  | [], _ + 1 => 0
  | g :: rest, k + 1 => groupRows g + offsetOf rest k

/-- The receiver group at position `k` (trivial default group out of range). -/
def groupAt (s : List ReceiverGroup) (k : ℕ) : ReceiverGroup := s.getD k ⟨[], 0⟩

/-- Abstract per-(receiver, cell) kernel value: `K g i r j` is the sensitivity
entry produced by the numba kernel evaluation for receiver group `g`,
requested component number `i` of that group, receiver `r` of the group and
model column `j`.  All four operation modes of the engine share it. -/
abbrev Kernel := ℕ → ℕ → ℕ → ℕ → ℚ

/-- Finite sum `f 0 + f 1 + ⋯ + f (n-1)`. -/
def sumTo (n : ℕ) (f : ℕ → ℚ) : ℚ :=
  match n with
  | 0 => 0
  | n + 1 => sumTo n f + f n

/-- `fields[vector_slice]` / `sensitivity_matrix[matrix_slice, :]` with
`slice(index_offset + i, index_offset + n_rows, n_components)` view positions
`index_offset + i + n_components * r` for receiver `r`; the numba routine then
fills entry `r` of the view.  `writeSlice start step vals n` performs exactly
those `n` point writes on top of an existing vector. -/
def writeSlice {α : Type} (start step : ℕ) (vals : ℕ → α) : ℕ → (ℕ → α) → (ℕ → α)
  | 0, f => f
  | n + 1, f => Function.update (writeSlice start step vals n f) (start + step * n) (vals n)

/-- Per-group write loop (`for i, component in enumerate(components)`): the
strided slice of component `i` starts at `off + i` with stride `nc`, and
receives the values `vals i ·`. -/
def writeGroup {α : Type} (off nc nRec : ℕ) (vals : ℕ → ℕ → α) : ℕ → (ℕ → α) → (ℕ → α)
  | 0, f => f
  | i + 1, f => writeSlice (off + i) nc (vals i) nRec (writeGroup off nc nRec vals i f)

/-- Outer loop over receiver groups shared by `_forward` and
`_sensitivity_matrix`: each group writes its `groupRows` rows starting at the
running `index_offset`, which then advances by `n_rows`. -/
def buildGroups {α : Type} (vals : ℕ → ℕ → ℕ → α) :
    List ReceiverGroup → ℕ → ℕ → (ℕ → α) → (ℕ → α)
  | [], _, _, f => f
  | g :: rest, gidx, off, f =>
      buildGroups vals rest (gidx + 1) (off + groupRows g)
        (writeGroup off g.nComp g.nRec (vals gidx) g.nComp f)

/-- `Simulation3DIntegral._forward`: streaming forward evaluation `G · m`
without storing `G`.  The fields vector starts zero-filled (`np.zeros`), and
for each group and component the numba forward routine fills the strided slice
with, per receiver, the accumulated kernel/model products.

The per-slice values are modelled from the spec: the numba forward functions
(module `_numba`, not part of the sources here) compute, for receiver `r`,
the sum over all model columns of the kernel value times the model value. -/
def forwardVec (K : Kernel) (nCols : ℕ) (m : ℕ → ℚ) (s : List ReceiverGroup) : ℕ → ℚ :=
  buildGroups (fun gidx i r => sumTo nCols (fun j => K gidx i r j * m j)) s 0 0 (fun _ => 0)

/-- `Simulation3DIntegral._sensitivity_matrix`: assembles the dense (or
memory-mapped) sensitivity matrix row by row.  The initial matrix `M0` is
arbitrary (`np.empty` does not clear memory); every row below `surveyND s` is
overwritten by exactly one strided slice write.

The per-row values are modelled from the spec: the numba sensitivity routines
(module `_numba`, not part of the sources here) write, for receiver `r`, the
row of kernel values of that receiver. -/
def sensitivityMatrix (K : Kernel) (s : List ReceiverGroup) (M0 : ℕ → ℕ → ℚ) :
    ℕ → ℕ → ℚ :=
  buildGroups (fun gidx i r => fun j => K gidx i r j) s 0 0 M0

/-- Dot product over the first `n` coordinates of two vectors. -/
def dotCols (n : ℕ) (a b : ℕ → ℚ) : ℚ := sumTo n (fun j => a j * b j)

/-- Inner component loop of
`Simulation3DIntegral._sensitivity_matrix_transpose_dot_vec`: the numba
`gt_dot_v` routine accumulates, into every column `j` of the result, the sum
over the group receivers of `v[vector_slice][r] * K`, where the slice picks
the rows `off + i + nc * r` (modelled from the spec: transpose-apply
accumulates `kernel_value × v[row]` into a per-column output vector). -/
def gtDotVGroup (K : Kernel) (gidx : ℕ) (v : ℕ → ℚ) (off nc nRec : ℕ) :
    ℕ → (ℕ → ℚ) → (ℕ → ℚ)
  | 0, res => res
  | i + 1, res => fun j =>
      gtDotVGroup K gidx v off nc nRec i res j
        + sumTo nRec (fun r => v (off + i + nc * r) * K gidx i r j)

/-- Outer loop of `_sensitivity_matrix_transpose_dot_vec` over receiver
groups, advancing `index_offset` by `n_rows` per group. -/
def gtDotVAux (K : Kernel) (v : ℕ → ℚ) :
    List ReceiverGroup → ℕ → ℕ → (ℕ → ℚ) → (ℕ → ℚ)
  | [], _, _, res => res
  | g :: rest, gidx, off, res =>
      gtDotVAux K v rest (gidx + 1) (off + groupRows g)
        (gtDotVGroup K gidx v off g.nComp g.nRec g.nComp res)

/-- `Simulation3DIntegral._sensitivity_matrix_transpose_dot_vec`: streaming
`G.T @ v` accumulation starting from a zero result vector. -/
def gtDotV (K : Kernel) (s : List ReceiverGroup) (v : ℕ → ℚ) : ℕ → ℚ :=
  gtDotVAux K v s 0 0 (fun _ => 0)

/-- Closed triple-sum form of the streaming `G.T @ v` contribution of a list
of receiver groups, used to state what the accumulation computes. -/
def gtvTriple (K : Kernel) (v : ℕ → ℚ) : List ReceiverGroup → ℕ → ℕ → ℕ → ℚ
  | [], _, _, _ => 0
  | g :: rest, gidx, off, j =>
      sumTo g.nComp (fun i => sumTo g.nRec (fun r =>
        v (off + i + g.nComp * r) * K gidx i r j))
      + gtvTriple K v rest (gidx + 1) (off + groupRows g) j

/-- Inner component loop of
`Simulation3DIntegral._gtg_diagonal_without_building_g`.  Faithful to the
source: that loop is `for component in components:` with **no** `enumerate`
and **no** `vector_slice` — the full `weights` array is handed to the numba
routine unchanged, so the weight applied to receiver `r` is `w r`, the
receiver-local index (modelled from the spec: the numba `diagonal_gtg`
routine accumulates `weight[row] × kernel_value²` per column, where `row`
ranges over the rows of the data it is given, i.e. the group's receivers). -/
def gtgDiagGroup (K : Kernel) (gidx : ℕ) (w : ℕ → ℚ) (nRec : ℕ) :
    ℕ → (ℕ → ℚ) → (ℕ → ℚ)
  | 0, res => res
  | i + 1, res => fun j =>
      gtgDiagGroup K gidx w nRec i res j
        + sumTo nRec (fun r => w r * (K gidx i r j * K gidx i r j))

/-- Outer loop of `_gtg_diagonal_without_building_g` over receiver groups.
Faithful to the source: this function keeps no `index_offset` at all. -/
def gtgDiagAux (K : Kernel) (w : ℕ → ℚ) :
    List ReceiverGroup → ℕ → (ℕ → ℚ) → (ℕ → ℚ)
  | [], _, res => res
  | g :: rest, gidx, res =>
      gtgDiagAux K w rest (gidx + 1) (gtgDiagGroup K gidx w g.nRec g.nComp res)

/-- `Simulation3DIntegral._gtg_diagonal_without_building_g`: streaming
diagonal of `G.T @ W.T @ W @ G`, starting from a zero diagonal. -/
def gtgDiagonalWithoutBuildingG (K : Kernel) (s : List ReceiverGroup) (w : ℕ → ℚ) :
    ℕ → ℚ :=
  gtgDiagAux K w s 0 (fun _ => 0)

/-- The Einstein-summation contraction used by `_get_gtg_diagonal` when `G`
is materialized: `np.einsum("i,ij,ij->j", weights, self.G, self.G)`. -/
def gtgDiagonalEinsum (K : Kernel) (s : List ReceiverGroup) (M0 : ℕ → ℕ → ℚ)
    (w : ℕ → ℚ) (j : ℕ) : ℚ :=
  sumTo (surveyND s) (fun i =>
    w i * (sensitivityMatrix K s M0 i j * sensitivityMatrix K s M0 i j))

/-! ### Configuration dispatch (`engine`, `store_sensitivities`) -/

/-- The two kernel-evaluation engines. -/
inductive Engine
  | geoana
  | choclo
  deriving DecidableEq

/-- The three `store_sensitivities` options. -/
inductive StoreSensitivities
  | ram
  | disk
  | forwardOnly
  deriving DecidableEq

/-- What the `G` property hands back when it does not raise. -/
inductive GRepr
  | denseArray
  | memmapArray
  | linearOp
  deriving DecidableEq

/-- The message of the `NotImplementedError` raised by the `G` property for
`engine="geoana"` with `store_sensitivities="forward_only"`. -/
def gForwardOnlyGeoanaMsg : String :=
  "Accessing matrix G with store_sensitivities=\"forward_only\" and engine=\"geoana\" hasn\x27t been implemented yet. Choose store_sensitivities=\"ram\" or \"disk\", or another engine, like \"choclo\"."

/-- The `G` property of `Simulation3DIntegral`: dispatch on
`(self.engine, self.store_sensitivities)`.  `("choclo", "forward_only")`
yields the linear operator, `("choclo", _)` the assembled matrix (memory map
when stored on disk, dense array otherwise), `("geoana", "forward_only")`
raises, and `("geoana", _)` calls `linear_operator()` of the base class
(not part of the sources here; modelled from the spec, which says the façade
returns a dense or memory-mapped array for the stored modes). -/
def gProperty (engine : Engine) (store : StoreSensitivities) : Except String GRepr :=
  match engine, store with
  | .choclo, .forwardOnly => .ok .linearOp
  | .choclo, .ram => .ok .denseArray
  | .choclo, .disk => .ok .memmapArray
  | .geoana, .forwardOnly => .error gForwardOnlyGeoanaMsg
  | .geoana, .ram => .ok .denseArray
  | .geoana, .disk => .ok .memmapArray

/-- `Simulation3DIntegral.fields`: under `store_sensitivities="forward_only"`
the data are computed by the streaming forward (`_forward` for choclo;
`linear_operator()` in forward-only mode for geoana, modelled from the spec
as the same accumulation over that engine's kernels); otherwise the stored
matrix `G` is multiplied by the model.  The amplitude post-processing applied
when `is_amplitude_data` is true is outside this definition. -/
def fieldsVec (engine : Engine) (store : StoreSensitivities) (K : Kernel)
    (nCols : ℕ) (m : ℕ → ℚ) (s : List ReceiverGroup) (M0 : ℕ → ℕ → ℚ) : ℕ → ℚ :=
  match store, engine with
  | .forwardOnly, .choclo => forwardVec K nCols m s
  | .forwardOnly, .geoana => forwardVec K nCols m s
  | _, _ => fun row => dotCols nCols (sensitivityMatrix K s M0 row) m

/-- Result shape of `getJ`: `G @ chiDeriv`, dense when `G` is a stored array
or memory map, a `LinearOperator` composition when `G` is the forward-only
operator. -/
inductive JRepr
  | denseTimesChiDeriv
  | operatorTimesChiDeriv
  deriving DecidableEq

/-- Message of the `NotImplementedError` raised by `getJ` in amplitude mode. -/
def getJAmplitudeMsg : String :=
  "The `getJ` method is not yet implemented to work with `is_amplitude_data`."

/-- `self.G @ chiDeriv` at the representation level. -/
def composeWithChiDeriv : GRepr → JRepr
  | .linearOp => .operatorTimesChiDeriv
  | _ => .denseTimesChiDeriv

/-- `Simulation3DIntegral.getJ`: the amplitude-mode check comes first, before
the model is assigned and before `self.G` is touched.  The second component
counts how many times the sensitivity machinery (the `G` property) was
consulted. -/
def getJDispatch (isAmplitudeData : Bool) (engine : Engine)
    (store : StoreSensitivities) : Except String JRepr × ℕ :=
  if isAmplitudeData then (.error getJAmplitudeMsg, 0)
  else
    match gProperty engine store with
    | .error msg => (.error msg, 1)
    | .ok g => (.ok (composeWithChiDeriv g), 1)

/-! ### Component vocabulary check (choclo paths) -/

/-- `CHOCLO_SUPPORTED_COMPONENTS`. -/
def chocloSupportedComponents : List String :=
  ["tmi", "bx", "by", "bz", "bxx", "byy", "bzz", "bxy", "bxz", "byz",
   "tmi_x", "tmi_y", "tmi_z"]

/-- `CHOCLO_SUPPORTED_COMPONENTS.issuperset(components)`. -/
def componentsSupported (components : List String) : Bool :=
  components.all (fun c => chocloSupportedComponents.contains c)

/-- Message of the `NotImplementedError` raised by the four choclo operation
loops; it interpolates the supported set into the text. -/
def componentsNotImplementedMsg : String :=
  "Other components besides \x7b"
    ++ String.intercalate ", " chocloSupportedComponents
    ++ "\x7d aren\x27t implemented yet."

/-- The per-group component check at the top of each receiver-group loop of
`_forward`, `_sensitivity_matrix`, `_sensitivity_matrix_transpose_dot_vec`
and `_gtg_diagonal_without_building_g`.  In the source the check is
interleaved with the writes, but the exception aborts the whole call, so
hoisting it before the computation is observationally identical. -/
def checkSurveyComponents : List ReceiverGroup → Except String Unit
  | [] => .ok ()
  | g :: rest =>
      if componentsSupported g.components then checkSurveyComponents rest
      else .error componentsNotImplementedMsg

/-- `_forward` including its component-vocabulary check. -/
def forwardChecked (K : Kernel) (nCols : ℕ) (m : ℕ → ℚ)
    (s : List ReceiverGroup) : Except String (ℕ → ℚ) :=
  (checkSurveyComponents s).map (fun _ => forwardVec K nCols m s)

/-- `_sensitivity_matrix` including its component-vocabulary check. -/
def sensitivityMatrixChecked (K : Kernel) (s : List ReceiverGroup)
    (M0 : ℕ → ℕ → ℚ) : Except String (ℕ → ℕ → ℚ) :=
  (checkSurveyComponents s).map (fun _ => sensitivityMatrix K s M0)

/-- `_sensitivity_matrix_transpose_dot_vec` including its check. -/
def gtDotVChecked (K : Kernel) (s : List ReceiverGroup) (v : ℕ → ℚ) :
    Except String (ℕ → ℚ) :=
  (checkSurveyComponents s).map (fun _ => gtDotV K s v)

/-- `_gtg_diagonal_without_building_g` including its check. -/
def gtgDiagChecked (K : Kernel) (s : List ReceiverGroup) (w : ℕ → ℚ) :
    Except String (ℕ → ℚ) :=
  (checkSurveyComponents s).map (fun _ => gtgDiagonalWithoutBuildingG K s w)

/-! ### The geoana path: `evaluate_integral`

A single active cell is modelled; its eight ordered corner-kernel values are
functions `Fin 8 → ℚ` (the result of indexing the node evaluations with the
cell's `_unique_inv` corner indices). -/

/-- The node-evaluation kernels `node_evals[...]` that `evaluate_integral`
computes from the geoana prism functions (external library, kept abstract). -/
structure NodeEvals where
  gxx : Fin 8 → ℚ
  gxy : Fin 8 → ℚ
  gxz : Fin 8 → ℚ
  gyy : Fin 8 → ℚ
  gyz : Fin 8 → ℚ
  gzz : Fin 8 → ℚ
  gxxx : Fin 8 → ℚ
  gxxy : Fin 8 → ℚ
  gxxz : Fin 8 → ℚ
  gyyx : Fin 8 → ℚ
  gxyz : Fin 8 → ℚ
  gzzx : Fin 8 → ℚ
  gyyy : Fin 8 → ℚ
  gyyz : Fin 8 → ℚ
  gzzy : Fin 8 → ℚ
  gzzz : Fin 8 → ℚ

/-- The `if component == ...` dispatch of `evaluate_integral` selecting
`(vals_x, vals_y, vals_z)`; `none` for a component no branch handles, in
which case the source leaves `vals_x` unbound. -/
def componentVals (ne : NodeEvals) (tmiProj : Fin 3 → ℚ) :
    String → Option ((Fin 8 → ℚ) × (Fin 8 → ℚ) × (Fin 8 → ℚ))
  | "bx" => some (ne.gxx, ne.gxy, ne.gxz)
  | "by" => some (ne.gxy, ne.gyy, ne.gyz)
  | "bz" => some (ne.gxz, ne.gyz, ne.gzz)
  | "tmi" => some
      (fun n => tmiProj 0 * ne.gxx n + tmiProj 1 * ne.gxy n + tmiProj 2 * ne.gxz n,
       fun n => tmiProj 0 * ne.gxy n + tmiProj 1 * ne.gyy n + tmiProj 2 * ne.gyz n,
       fun n => tmiProj 0 * ne.gxz n + tmiProj 1 * ne.gyz n + tmiProj 2 * ne.gzz n)
  | "tmi_x" => some
      (fun n => tmiProj 0 * ne.gxxx n + tmiProj 1 * ne.gxxy n + tmiProj 2 * ne.gxxz n,
       fun n => tmiProj 0 * ne.gxxy n + tmiProj 1 * ne.gyyx n + tmiProj 2 * ne.gxyz n,
       fun n => tmiProj 0 * ne.gxxz n + tmiProj 1 * ne.gxyz n + tmiProj 2 * ne.gzzx n)
  | "tmi_y" => some
      (fun n => tmiProj 0 * ne.gxxy n + tmiProj 1 * ne.gyyx n + tmiProj 2 * ne.gxyz n,
       fun n => tmiProj 0 * ne.gyyx n + tmiProj 1 * ne.gyyy n + tmiProj 2 * ne.gyyz n,
       fun n => tmiProj 0 * ne.gxyz n + tmiProj 1 * ne.gyyz n + tmiProj 2 * ne.gzzy n)
  | "tmi_z" => some
      (fun n => tmiProj 0 * ne.gxxz n + tmiProj 1 * ne.gxyz n + tmiProj 2 * ne.gzzx n,
       fun n => tmiProj 0 * ne.gxyz n + tmiProj 1 * ne.gyyz n + tmiProj 2 * ne.gzzy n,
       fun n => tmiProj 0 * ne.gzzx n + tmiProj 1 * ne.gzzy n + tmiProj 2 * ne.gzzz n)
  | "bxx" => some (ne.gxxx, ne.gxxy, ne.gxxz)
  | "bxy" => some (ne.gxxy, ne.gyyx, ne.gxyz)
  | "bxz" => some (ne.gxxz, ne.gxyz, ne.gzzx)
  | "byy" => some (ne.gyyx, ne.gyyy, ne.gyyz)
  | "byz" => some (ne.gxyz, ne.gyyz, ne.gzzy)
  | "bzz" => some (ne.gzzx, ne.gzzy, ne.gzzz)
  | _ => none

/-- The signed eight-corner combination written literally in
`evaluate_integral`:
`vals[0] - vals[1] - vals[2] + vals[3] - vals[4] + vals[5] + vals[6] - vals[7]`. -/
def cellEval (vals : Fin 8 → ℚ) : ℚ :=
  vals 0 - vals 1 - vals 2 + vals 3 - vals 4 + vals 5 + vals 6 - vals 7

/-- The sign pattern (+, −, −, +, −, +, +, −) over the cell's ordered
corners. -/
def cornerSign : Fin 8 → ℚ := ![1, -1, -1, 1, -1, 1, 1, -1]

/-- Signed corner sum expressed through the sign pattern. -/
def signedCornerSum (v : Fin 8 → ℚ) : ℚ := ∑ n : Fin 8, cornerSign n * v n

/-- Python exceptions that matter for the geoana path. -/
inductive PyExn
  | notImplemented (msg : String)
  | unboundLocalError (name : String)
  deriving DecidableEq

/-- One requested component of `evaluate_integral` for one active cell with
a scalar model: `cell_vals = cell_eval_x * M[:,0] + cell_eval_y * M[:,1] +
cell_eval_z * M[:,2]`, then `rows[component] /= 4 * np.pi`.  A component no
dispatch branch assigns leaves `vals_x` unbound, so the source fails with an
`UnboundLocalError` instead of any explicit error. -/
noncomputable def evaluateIntegralRowScalar (ne : NodeEvals) (tmiProj : Fin 3 → ℚ)
    (M : Fin 3 → ℚ) (c : String) : Except PyExn ℝ :=
  match componentVals ne tmiProj c with
  | some (vx, vy, vz) =>
      .ok (((cellEval vx * M 0 + cellEval vy * M 1 + cellEval vz * M 2 : ℚ) : ℝ)
        / (4 * Real.pi))
  | none => .error (.unboundLocalError "vals_x")

/-- One requested component of `evaluate_integral` for one active cell with a
vector model: `cell_vals = np.r_[cell_eval_x, cell_eval_y, cell_eval_z] *
amplitude`, then `rows[component] /= 4 * np.pi`. -/
noncomputable def evaluateIntegralRowVector (ne : NodeEvals) (tmiProj : Fin 3 → ℚ)
    (amplitude : ℚ) (c : String) : Except PyExn (ℝ × ℝ × ℝ) :=
  match componentVals ne tmiProj c with
  | some (vx, vy, vz) =>
      .ok (((cellEval vx * amplitude : ℚ) : ℝ) / (4 * Real.pi),
           ((cellEval vy * amplitude : ℚ) : ℝ) / (4 * Real.pi),
           ((cellEval vz * amplitude : ℚ) : ℝ) / (4 * Real.pi))
  | none => .error (.unboundLocalError "vals_x")

/-! ### `getJtJdiag` cache -/

/-- Cache state carried by the simulation object across `getJtJdiag` calls:
`_gtg_diagonal`, `_weights_sha256` (both absent before the first call), and
an accumulation-invocation counter used to observe recomputation.  The sha256
digest of the squared-weights array is modelled by the array itself: equal
arrays hash to equal digests, and distinct arrays are taken to have distinct
digests (collision-freeness of sha256). -/
structure JtJCache where
  gtgDiagonal : Option (ℕ → ℚ)
  weightsSha256 : Option (List ℚ)
  accumulationCount : ℕ

/-- `Simulation3DIntegral.getJtJdiag` around an abstract
`_get_gtg_diagonal` (`getGtg`) and the chiDeriv chain-rule post-processing
(`chainRule`): reuse the cached diagonal exactly when both cached attributes
exist and the stored digest equals the new one; otherwise recompute and
overwrite both attributes. -/
def getJtJdiagStep (getGtg : List ℚ → ℕ → ℚ) (chainRule : (ℕ → ℚ) → ℕ → ℚ)
    (st : JtJCache) (w : List ℚ) : (ℕ → ℚ) × JtJCache :=
  match st.gtgDiagonal, st.weightsSha256 with
  | some d, some w0 =>
      if w0 = w then (chainRule d, st)
      else
        let d2 := getGtg w
        (chainRule d2, ⟨some d2, some w, st.accumulationCount + 1⟩)
  | _, _ =>
      let d2 := getGtg w
      (chainRule d2, ⟨some d2, some w, st.accumulationCount + 1⟩)

/-! ### `nD` property -/

/-- `Simulation3DIntegral.nD`:
`self.survey.nD if not self.is_amplitude_data else self.survey.nD // 3`. -/
def simulationND (s : List ReceiverGroup) (isAmplitudeData : Bool) : ℕ :=
  if isAmplitudeData then surveyND s / 3 else surveyND s

/-! ### Concrete inputs for witnesses and counterexamples -/

/-- A two-receiver, two-component survey. -/
def exampleSurvey : List ReceiverGroup := [⟨["bx", "bz"], 2⟩]

/-- A concrete kernel with distinguishable entries. -/
def exampleKernel : Kernel :=
  fun g i r j => (g : ℚ) + 2 * (i : ℚ) + 3 * (r : ℚ) + 5 * (j : ℚ) + 1

/-- A concrete model vector. -/
def exampleModel : ℕ → ℚ := fun j => (j : ℚ) + 1

/-- A deliberately nonzero initial matrix (mimicking `np.empty` garbage). -/
def exampleInitMatrix : ℕ → ℕ → ℚ := fun _ _ => 7

/-- Survey for the diagonal discrepancy: one group requesting two components
for a single receiver, so rows 0 and 1 belong to different components. -/
def c3Survey : List ReceiverGroup := [⟨["tmi", "bx"], 1⟩]

/-- Kernel whose value depends only on the component index. -/
def c3Kernel : Kernel := fun _ i _ _ => (i : ℚ) + 1

/-- Weights selecting only data row 0. -/
def c3Weights : ℕ → ℚ := fun p => if p = 0 then 1 else 0

/-- Concrete `_get_gtg_diagonal` stand-in. -/
def c4GetGtg : List ℚ → ℕ → ℚ := fun w _ => w.headD 0

/-- Concrete chain-rule post-processing stand-in. -/
def c4ChainRule : (ℕ → ℚ) → ℕ → ℚ := fun d n => d n

/-- Cache state of a fresh simulation (neither attribute set). -/
def c4InitialCache : JtJCache := ⟨none, none, 0⟩

/-- First weights vector. -/
def c4WeightsA : List ℚ := [1, 2]

/-- Second, different weights vector. -/
def c4WeightsB : List ℚ := [3]

/-- Concrete corner values. -/
def exampleCorner : Fin 8 → ℚ := fun n => (n.1 : ℚ)

/-- Concrete node evaluations for the geoana path. -/
def exampleNodeEvals : NodeEvals :=
  ⟨exampleCorner, exampleCorner, exampleCorner, exampleCorner, exampleCorner,
   exampleCorner, exampleCorner, exampleCorner, exampleCorner, exampleCorner,
   exampleCorner, exampleCorner, exampleCorner, exampleCorner, exampleCorner,
   exampleCorner⟩

/-- Concrete ambient-field projection. -/
def exampleTmiProj : Fin 3 → ℚ := fun k => (k.1 : ℚ) + 1

/-- Concrete per-cell magnetization row. -/
def exampleMagnetization : Fin 3 → ℚ := fun k => (k.1 : ℚ) + 4

/-- A receiver group requesting a component outside the vocabulary. -/
def c9Survey : List ReceiverGroup := [⟨["foo"], 2⟩]

/-- An all-three-component survey (xyz triplets per receiver). -/
def c10Survey : List ReceiverGroup := [⟨["bx", "by", "bz"], 2⟩]

/-! ## Theorems -/

/-! ### Finite-sum toolkit -/

theorem sumTo_congr {n : ℕ} {f f' : ℕ → ℚ} (h : ∀ i, i < n → f i = f' i) :
    sumTo n f = sumTo n f' := by
  induction n with
  | zero => rfl
  | succ n ih =>
    simp only [sumTo]
    rw [ih fun i hi => h i (Nat.lt_succ_of_lt hi), h n (Nat.lt_succ_self n)]

theorem sumTo_zero (n : ℕ) : sumTo n (fun _ => 0) = 0 := by
  induction n with
  | zero => rfl
  | succ n ih => simp only [sumTo, ih]; ring

theorem sumTo_add_distrib (n : ℕ) (f fg : ℕ → ℚ) :
    sumTo n (fun i => f i + fg i) = sumTo n f + sumTo n fg := by
  induction n with
  | zero => simp [sumTo]
  | succ n ih => simp only [sumTo, ih]; ring

theorem sumTo_mul_left (n : ℕ) (c : ℚ) (f : ℕ → ℚ) :
    sumTo n (fun i => c * f i) = c * sumTo n f := by
  induction n with
  | zero => simp [sumTo]
  | succ n ih => simp only [sumTo, ih]; ring

theorem sumTo_mul_right (n : ℕ) (c : ℚ) (f : ℕ → ℚ) :
    sumTo n (fun i => f i * c) = sumTo n f * c := by
  induction n with
  | zero => simp [sumTo]
  | succ n ih => simp only [sumTo, ih]; ring

theorem sumTo_split (a b : ℕ) (f : ℕ → ℚ) :
    sumTo (a + b) f = sumTo a f + sumTo b (fun i => f (a + i)) := by
  induction b with
  | zero => simp [sumTo]
  | succ b ih =>
    have h : a + (b + 1) = (a + b) + 1 := by omega
    rw [h]
    simp only [sumTo, ih]
    ring

theorem sumTo_comm (n m : ℕ) (f : ℕ → ℕ → ℚ) :
    sumTo n (fun i => sumTo m (f i)) = sumTo m (fun j => sumTo n (fun i => f i j)) := by
  induction n with
  | zero =>
    simp only [sumTo]
    induction m with
    | zero => rfl
    | succ m ihm => simp only [sumTo, ← ihm]; ring
  | succ n ih =>
    simp only [sumTo, ih, ← sumTo_add_distrib]

/-- Reindexing a sum over a group's row block by (receiver, component). -/
theorem sumTo_mul_reindex (nc nRec : ℕ) (F : ℕ → ℚ) :
    sumTo (nc * nRec) F = sumTo nRec (fun r => sumTo nc (fun i => F (nc * r + i))) := by
  induction nRec with
  | zero => simp [Nat.mul_zero, sumTo]
  | succ nR ih =>
    have h : nc * (nR + 1) = nc * nR + nc := by ring
    rw [h, sumTo_split, ih]
    simp only [sumTo]

/-! ### Positional lemmas for the strided writes -/

theorem writeSlice_miss {α : Type} (start step : ℕ) (vals : ℕ → α) (n : ℕ)
    (f : ℕ → α) (p : ℕ) (h : ∀ r, r < n → p ≠ start + step * r) :
    writeSlice start step vals n f p = f p := by
  induction n with
  | zero => rfl
  | succ n ih =>
    simp only [writeSlice]
    rw [Function.update_noteq (h n (Nat.lt_succ_self n))]
    exact ih fun r hr => h r (Nat.lt_succ_of_lt hr)

theorem writeSlice_hit {α : Type} (start step : ℕ) (vals : ℕ → α) (n : ℕ)
    (f : ℕ → α) (r : ℕ) (hstep : 0 < step) (hr : r < n) :
    writeSlice start step vals n f (start + step * r) = vals r := by
  induction n with
  | zero => omega
  | succ n ih =>
    simp only [writeSlice]
    rcases Nat.lt_succ_iff_lt_or_eq.mp hr with h | h
    · have hne : start + step * r ≠ start + step * n := by
        intro he
        have : r = n := by
          have := Nat.add_left_cancel he
          exact Nat.eq_of_mul_eq_mul_left hstep this
        omega
      rw [Function.update_noteq hne]
      exact ih h
    · subst h
      exact Function.update_same _ _ _

/-- Uniqueness of the within-group position decomposition
`i + nc * r` with `i < nc`. -/
theorem pos_decomp_unique {nc i c r rr : ℕ} (hi : i < nc) (hc : c < nc)
    (h : i + nc * r = c + nc * rr) : i = c ∧ r = rr := by
  have hmod : (i + nc * r) % nc = (c + nc * rr) % nc := by rw [h]
  rw [Nat.add_mul_mod_self_left, Nat.add_mul_mod_self_left,
    Nat.mod_eq_of_lt hi, Nat.mod_eq_of_lt hc] at hmod
  subst hmod
  refine ⟨rfl, ?_⟩
  have := Nat.add_left_cancel h
  exact Nat.eq_of_mul_eq_mul_left (by omega) this

/-- Any within-group position lies strictly inside the group's row block. -/
theorem pos_lt_groupRows {nc nRec i r : ℕ} (hi : i < nc) (hr : r < nRec) :
    i + nc * r < nc * nRec := by
  calc i + nc * r < nc + nc * r := by omega
  _ = nc * (r + 1) := by ring
  _ ≤ nc * nRec := Nat.mul_le_mul_left nc hr

theorem writeGroup_miss {α : Type} (off nc nRec : ℕ) (vals : ℕ → ℕ → α)
    (cnt : ℕ) (f : ℕ → α) (p : ℕ)
    (h : ∀ i r, i < cnt → r < nRec → p ≠ off + i + nc * r) :
    writeGroup off nc nRec vals cnt f p = f p := by
  induction cnt with
  | zero => rfl
  | succ c ih =>
    simp only [writeGroup]
    rw [writeSlice_miss _ _ _ _ _ _
      (fun r hr => h c r (Nat.lt_succ_self c) hr)]
    exact ih fun i r hi hr => h i r (Nat.lt_succ_of_lt hi) hr

theorem writeGroup_hit {α : Type} (off nc nRec : ℕ) (vals : ℕ → ℕ → α)
    (cnt : ℕ) (f : ℕ → α) (i r : ℕ) (hi : i < cnt) (hcnt : cnt ≤ nc)
    (hr : r < nRec) :
    writeGroup off nc nRec vals cnt f (off + i + nc * r) = vals i r := by
  induction cnt with
  | zero => omega
  | succ c ih =>
    simp only [writeGroup]
    rcases Nat.lt_succ_iff_lt_or_eq.mp hi with h | h
    · rw [writeSlice_miss]
      · exact ih h (by omega)
      · intro rr hrr he
        have : i + nc * r = c + nc * rr := by omega
        have := (pos_decomp_unique (by omega) (by omega) this).1
        omega
    · subst h
      have he : off + i + nc * r = (off + i) + nc * r := by omega
      rw [he, writeSlice_hit _ _ _ _ _ _ (by omega) hr]

theorem buildGroups_low {α : Type} (vals : ℕ → ℕ → ℕ → α)
    (s : List ReceiverGroup) (gidx off : ℕ) (f : ℕ → α) (p : ℕ) (hp : p < off) :
    buildGroups vals s gidx off f p = f p := by
  induction s generalizing gidx off f with
  | nil => rfl
  | cons g rest ih =>
    simp only [buildGroups]
    rw [ih _ _ _ (by omega)]
    exact writeGroup_miss _ _ _ _ _ _ _ fun i r _ _ => by omega

/-- The row written for (group `k`, component `i`, receiver `r`) holds exactly
the group-`k` value of that component/receiver pair. -/
theorem buildGroups_hit {α : Type} (vals : ℕ → ℕ → ℕ → α)
    (s : List ReceiverGroup) (gidx off : ℕ) (f : ℕ → α) (k i r : ℕ)
    (hk : k < s.length) (hi : i < (groupAt s k).nComp)
    (hr : r < (groupAt s k).nRec) :
    buildGroups vals s gidx off f (off + offsetOf s k + i + (groupAt s k).nComp * r)
      = vals (gidx + k) i r := by
  induction s generalizing gidx off f k with
  | nil => simp at hk
  | cons g rest ih =>
    match k with
    | 0 =>
      have hg : groupAt (g :: rest) 0 = g := rfl
      rw [hg] at hi hr ⊢
      simp only [buildGroups, offsetOf]
      have hlt : off + 0 + i + g.nComp * r < off + groupRows g := by
        have := pos_lt_groupRows hi hr
        simp only [groupRows]
        omega
      rw [buildGroups_low _ _ _ _ _ _ hlt]
      have he : off + 0 + i + g.nComp * r = off + i + g.nComp * r := by omega
      rw [he, writeGroup_hit _ _ _ _ _ _ _ _ hi (le_refl _) hr]
      simp
    | k + 1 =>
      have hg : groupAt (g :: rest) (k + 1) = groupAt rest k := rfl
      rw [hg] at hi hr ⊢
      simp only [buildGroups, offsetOf]
      have he : off + (groupRows g + offsetOf rest k) + i + (groupAt rest k).nComp * r
          = (off + groupRows g) + offsetOf rest k + i + (groupAt rest k).nComp * r := by
        omega
      rw [he, ih _ _ _ k (by simpa using hk) hi hr]
      have : gidx + 1 + k = gidx + (k + 1) := by omega
      rw [this]

/-- Every row below `surveyND s` decomposes uniquely as
`offsetOf s k + i + nComp k * r`: the decode direction of the row layout. -/
theorem row_decode (s : List ReceiverGroup) (p : ℕ) (hp : p < surveyND s) :
    ∃ k i r, k < s.length ∧ i < (groupAt s k).nComp ∧ r < (groupAt s k).nRec ∧
      p = offsetOf s k + i + (groupAt s k).nComp * r := by
  induction s generalizing p with
  | nil => simp [surveyND] at hp
  | cons g rest ih =>
    simp only [surveyND] at hp
    by_cases hcase : p < groupRows g
    · have hnc : 0 < g.nComp := by
        rcases Nat.eq_zero_or_pos g.nComp with h0 | h0
        · simp [groupRows, h0] at hcase
        · exact h0
      refine ⟨0, p % g.nComp, p / g.nComp, by simp, ?_, ?_, ?_⟩
      · exact Nat.mod_lt _ hnc
      · have hg : groupAt (g :: rest) 0 = g := rfl
        rw [hg]
        rw [Nat.div_lt_iff_lt_mul hnc]
        calc p < groupRows g := hcase
        _ = g.nRec * g.nComp := by simp [groupRows]; ring
      · have hg : groupAt (g :: rest) 0 = g := rfl
        rw [hg]
        simp only [offsetOf, Nat.zero_add]
        rw [Nat.mod_add_div p g.nComp]
    · obtain ⟨k, i, r, hk, hi, hr, he⟩ := ih (p - groupRows g) (by omega)
      refine ⟨k + 1, i, r, by simpa using hk, hi, hr, ?_⟩
      have hg : groupAt (g :: rest) (k + 1) = groupAt rest k := rfl
      rw [hg]
      simp only [offsetOf]
      omega

/-! ### What the core operations compute, row by row -/

/-- Row content of the assembled sensitivity matrix. -/
theorem sensitivityMatrix_row (K : Kernel) (s : List ReceiverGroup)
    (M0 : ℕ → ℕ → ℚ) (k i r : ℕ) (hk : k < s.length)
    (hi : i < (groupAt s k).nComp) (hr : r < (groupAt s k).nRec) (j : ℕ) :
    sensitivityMatrix K s M0 (offsetOf s k + i + (groupAt s k).nComp * r) j
      = K k i r j := by
  have h := buildGroups_hit (fun gidx i r => fun j => K gidx i r j)
    s 0 0 M0 k i r hk hi hr
  simp only [Nat.zero_add] at h
  exact congrFun h j

/-- Row content of the streaming forward vector. -/
theorem forwardVec_row (K : Kernel) (nCols : ℕ) (m : ℕ → ℚ)
    (s : List ReceiverGroup) (k i r : ℕ) (hk : k < s.length)
    (hi : i < (groupAt s k).nComp) (hr : r < (groupAt s k).nRec) :
    forwardVec K nCols m s (offsetOf s k + i + (groupAt s k).nComp * r)
      = sumTo nCols (fun j => K k i r j * m j) := by
  have h := buildGroups_hit (fun gidx i r => sumTo nCols (fun j => K gidx i r j * m j))
    s 0 0 (fun _ => 0) k i r hk hi hr
  simp only [Nat.zero_add] at h
  exact h

theorem gtDotVGroup_eq (K : Kernel) (gidx : ℕ) (v : ℕ → ℚ) (off nc nRec : ℕ)
    (cnt : ℕ) (res : ℕ → ℚ) (j : ℕ) :
    gtDotVGroup K gidx v off nc nRec cnt res j
      = res j + sumTo cnt (fun i => sumTo nRec (fun r =>
          v (off + i + nc * r) * K gidx i r j)) := by
  induction cnt with
  | zero => simp [gtDotVGroup, sumTo]
  | succ c ih => simp only [gtDotVGroup, sumTo, ih]; ring

theorem gtDotVAux_eq (K : Kernel) (v : ℕ → ℚ) (s : List ReceiverGroup) :
    ∀ (gidx off : ℕ) (res : ℕ → ℚ) (j : ℕ),
      gtDotVAux K v s gidx off res j = res j + gtvTriple K v s gidx off j := by
  induction s with
  | nil => intro gidx off res j; simp [gtDotVAux, gtvTriple]
  | cons g rest ih =>
    intro gidx off res j
    simp only [gtDotVAux, gtvTriple]
    rw [ih, gtDotVGroup_eq]
    ring

/-- The streaming `G.T @ v` result in closed triple-sum form. -/
theorem gtDotV_eq_triple (K : Kernel) (s : List ReceiverGroup) (v : ℕ → ℚ)
    (j : ℕ) : gtDotV K s v j = gtvTriple K v s 0 0 j := by
  simp [gtDotV, gtDotVAux_eq]

/-- Core adjoint computation: summing any vector that holds the streaming
forward values over the data rows against `v` equals pairing the model with
the streaming transpose contributions. -/
theorem adjoint_core (K : Kernel) (nCols : ℕ) (u v : ℕ → ℚ) :
    ∀ (s : List ReceiverGroup) (gidx off : ℕ) (fw : ℕ → ℚ),
      (∀ k i r, k < s.length → i < (groupAt s k).nComp → r < (groupAt s k).nRec →
          fw (off + offsetOf s k + i + (groupAt s k).nComp * r)
            = sumTo nCols (fun j => K (gidx + k) i r j * u j)) →
      sumTo (surveyND s) (fun p => fw (off + p) * v (off + p))
        = sumTo nCols (fun j => u j * gtvTriple K v s gidx off j) := by
  intro s
  induction s with
  | nil =>
    intro gidx off fw _
    have hz : sumTo nCols (fun j => u j * gtvTriple K v [] gidx off j) = 0 := by
      have h : ∀ j, j < nCols →
          u j * gtvTriple K v [] gidx off j = (fun _ : ℕ => (0 : ℚ)) j := by
        intro j _
        simp [gtvTriple]
      rw [sumTo_congr h]
      exact sumTo_zero nCols
    simpa [surveyND, sumTo] using hz.symm
  | cons g rest ih =>
    intro gidx off fw hfw
    have hnd : surveyND (g :: rest) = groupRows g + surveyND rest := rfl
    rw [hnd, sumTo_split]
    have htail : sumTo (surveyND rest)
        (fun p => fw (off + (groupRows g + p)) * v (off + (groupRows g + p)))
        = sumTo nCols (fun j =>
            u j * gtvTriple K v rest (gidx + 1) (off + groupRows g) j) := by
      rw [sumTo_congr (fun p _ => by
        rw [show off + (groupRows g + p) = (off + groupRows g) + p by omega])]
      apply ih (gidx + 1) (off + groupRows g) fw
      intro k i r hk hi hr
      have h1 := hfw (k + 1) i r (by simpa using hk) hi hr
      have hpos : off + offsetOf (g :: rest) (k + 1) + i
            + (groupAt (g :: rest) (k + 1)).nComp * r
          = (off + groupRows g) + offsetOf rest k + i + (groupAt rest k).nComp * r := by
        have hoff : offsetOf (g :: rest) (k + 1) = groupRows g + offsetOf rest k := rfl
        have hgat : groupAt (g :: rest) (k + 1) = groupAt rest k := rfl
        rw [hoff, hgat]
        omega
      rw [hpos] at h1
      rw [h1]
      have h2 : gidx + (k + 1) = gidx + 1 + k := by omega
      rw [h2]
    have hhead : sumTo (groupRows g) (fun p => fw (off + p) * v (off + p))
        = sumTo nCols (fun j => u j * sumTo g.nComp (fun i => sumTo g.nRec (fun r =>
            v (off + i + g.nComp * r) * K gidx i r j))) := by
      have hrows : groupRows g = g.nComp * g.nRec := rfl
      rw [hrows, sumTo_mul_reindex, sumTo_comm]
      have hstep1 : ∀ i, i < g.nComp →
          sumTo g.nRec (fun r =>
            fw (off + (g.nComp * r + i)) * v (off + (g.nComp * r + i)))
            = sumTo g.nRec (fun r => sumTo nCols (fun j =>
                K gidx i r j * u j * v (off + i + g.nComp * r))) := by
        intro i hi
        apply sumTo_congr
        intro r hr
        have hpos : off + (g.nComp * r + i) = off + i + g.nComp * r := by omega
        rw [hpos]
        have h0 := hfw 0 i r (by simp)
          (by exact hi) (by exact hr)
        have hpos0 : off + offsetOf (g :: rest) 0 + i
              + (groupAt (g :: rest) 0).nComp * r
            = off + i + g.nComp * r := by
          have h3 : offsetOf (g :: rest) 0 = 0 := rfl
          have hgat : groupAt (g :: rest) 0 = g := rfl
          rw [h3, hgat]
          omega
        rw [hpos0] at h0
        rw [h0]
        have h4 : gidx + 0 = gidx := by omega
        rw [h4, sumTo_mul_right]
      rw [sumTo_congr hstep1]
      have hswapinner : ∀ i, i < g.nComp →
          sumTo g.nRec (fun r => sumTo nCols (fun j =>
            K gidx i r j * u j * v (off + i + g.nComp * r)))
            = sumTo nCols (fun j => sumTo g.nRec (fun r =>
                K gidx i r j * u j * v (off + i + g.nComp * r))) := by
        intro i _
        exact sumTo_comm g.nRec nCols _
      rw [sumTo_congr hswapinner, sumTo_comm]
      apply sumTo_congr
      intro j _
      have hinner : ∀ i, i < g.nComp →
          sumTo g.nRec (fun r => K gidx i r j * u j * v (off + i + g.nComp * r))
            = u j * sumTo g.nRec (fun r =>
                v (off + i + g.nComp * r) * K gidx i r j) := by
        intro i _
        rw [sumTo_congr (fun r _ => by ring :
          ∀ r, r < g.nRec → K gidx i r j * u j * v (off + i + g.nComp * r)
            = u j * (v (off + i + g.nComp * r) * K gidx i r j))]
        exact sumTo_mul_left g.nRec (u j) _
      rw [sumTo_congr hinner]
      exact sumTo_mul_left g.nComp (u j) _
    rw [htail, hhead]
    have hmul : sumTo nCols (fun j => u j * gtvTriple K v (g :: rest) gidx off j)
        = sumTo nCols (fun j =>
            u j * sumTo g.nComp (fun i => sumTo g.nRec (fun r =>
              v (off + i + g.nComp * r) * K gidx i r j))
            + u j * gtvTriple K v rest (gidx + 1) (off + groupRows g) j) := by
      apply sumTo_congr
      intro j _
      have hg : gtvTriple K v (g :: rest) gidx off j
          = sumTo g.nComp (fun i => sumTo g.nRec (fun r =>
              v (off + i + g.nComp * r) * K gidx i r j))
            + gtvTriple K v rest (gidx + 1) (off + groupRows g) j := rfl
      rw [hg, mul_add]
    rw [hmul, sumTo_add_distrib]

/-! ### Supporting lemmas for the claims -/

/-- The eight-corner expression of `evaluate_integral` is the signed sum with
the fixed pattern (+, −, −, +, −, +, +, −). -/
theorem cellEval_signed (v : Fin 8 → ℚ) : cellEval v = signedCornerSum v := by
  simp only [signedCornerSum, cellEval]
  rw [Fin.sum_univ_eight,
    show cornerSign 0 = 1 from rfl, show cornerSign 1 = -1 from rfl,
    show cornerSign 2 = -1 from rfl, show cornerSign 3 = 1 from rfl,
    show cornerSign 4 = -1 from rfl, show cornerSign 5 = 1 from rfl,
    show cornerSign 6 = 1 from rfl, show cornerSign 7 = -1 from rfl]
  ring

/-- A survey containing a group with an unsupported component makes the
shared per-group check raise the not-implemented error. -/
theorem checkSurveyComponents_error (s : List ReceiverGroup)
    (h : ∃ g ∈ s, componentsSupported g.components = false) :
    checkSurveyComponents s = .error componentsNotImplementedMsg := by
  induction s with
  | nil => simp at h
  | cons g rest ih =>
    simp only [checkSurveyComponents]
    by_cases hg : componentsSupported g.components = true
    · rw [if_pos hg]
      apply ih
      rcases h with ⟨g2, hmem, hbad⟩
      rcases List.mem_cons.mp hmem with he | hmem2
      · subst he
        rw [hg] at hbad
        exact Bool.noConfusion hbad
      · exact ⟨g2, hmem2, hbad⟩
    · rw [if_neg hg]

/-- An all-three-component survey has a datum count divisible by 3. -/
theorem surveyND_three_dvd (s : List ReceiverGroup)
    (h3 : ∀ g ∈ s, g.nComp = 3) : 3 ∣ surveyND s := by
  induction s with
  | nil => simp [surveyND]
  | cons g rest ih =>
    have hg : g.nComp = 3 := h3 g (List.mem_cons_self g rest)
    have hr := ih (fun g2 hm => h3 g2 (List.mem_cons_of_mem g hm))
    simp only [surveyND, groupRows, hg]
    exact Nat.dvd_add ⟨g.nRec, rfl⟩ hr

/-! ### The claims -/

/-- Claim C1: for every survey, kernel and model, the dense (or memory-mapped)
matrix times the model, the forward-only operator applied to the model
(`matvec = _forward`), and the `fields(model)` dispatch all yield the same
data value on every data row, for every engine/storage configuration routed
through `fields`. -/
theorem claim1_representations_agree (engine : Engine) (store : StoreSensitivities)
    (K : Kernel) (s : List ReceiverGroup) (nCols : ℕ) (m : ℕ → ℚ)
    (M0 : ℕ → ℕ → ℚ) (row : ℕ) (hrow : row < surveyND s) :
    fieldsVec engine store K nCols m s M0 row
        = dotCols nCols (sensitivityMatrix K s M0 row) m
    ∧ forwardVec K nCols m s row
        = dotCols nCols (sensitivityMatrix K s M0 row) m := by
  obtain ⟨k, i, r, hk, hi, hr, he⟩ := row_decode s row hrow
  have hfw : forwardVec K nCols m s row = sumTo nCols (fun j => K k i r j * m j) := by
    rw [he]
    exact forwardVec_row K nCols m s k i r hk hi hr
  have hmat : dotCols nCols (sensitivityMatrix K s M0 row) m
      = sumTo nCols (fun j => K k i r j * m j) := by
    simp only [dotCols]
    apply sumTo_congr
    intro j _
    rw [he, sensitivityMatrix_row K s M0 k i r hk hi hr j]
  have hgen : forwardVec K nCols m s row
      = dotCols nCols (sensitivityMatrix K s M0 row) m := by
    rw [hfw]
    exact hmat.symm
  constructor
  · cases store <;> cases engine <;> simp only [fieldsVec] <;>
      first | rfl | exact hgen
  · exact hgen

/-- Witness for C1 on a concrete two-receiver, two-component survey. -/
theorem claim1_witness :
    3 < surveyND exampleSurvey
    ∧ (fieldsVec Engine.choclo StoreSensitivities.forwardOnly exampleKernel 2
          exampleModel exampleSurvey exampleInitMatrix 3
        = dotCols 2
            (sensitivityMatrix exampleKernel exampleSurvey exampleInitMatrix 3)
            exampleModel
      ∧ forwardVec exampleKernel 2 exampleModel exampleSurvey 3
        = dotCols 2
            (sensitivityMatrix exampleKernel exampleSurvey exampleInitMatrix 3)
            exampleModel) :=
  ⟨by decide, claim1_representations_agree Engine.choclo StoreSensitivities.forwardOnly
    exampleKernel exampleSurvey 2 exampleModel exampleInitMatrix 3 (by decide)⟩

/-- Claim C2: forward and transpose evaluations are mutually adjoint:
`⟨G·u, v⟩ = ⟨u, Gᵀ·v⟩` both for the streaming pair
(`_forward`, `_sensitivity_matrix_transpose_dot_vec`) that backs the
forward-only linear operator, and for the assembled matrix with its literal
transpose.  The model size `nCols` is arbitrary, covering both scalar
(`nC`) and vector (`3 * nC`) model types. -/
theorem claim2_adjoint (K : Kernel) (s : List ReceiverGroup) (nCols : ℕ)
    (u v : ℕ → ℚ) (M0 : ℕ → ℕ → ℚ) :
    sumTo (surveyND s) (fun p => forwardVec K nCols u s p * v p)
      = sumTo nCols (fun j => u j * gtDotV K s v j)
    ∧ sumTo (surveyND s)
        (fun p => dotCols nCols (sensitivityMatrix K s M0 p) u * v p)
      = sumTo nCols (fun j =>
          u j * sumTo (surveyND s) (fun p => sensitivityMatrix K s M0 p j * v p)) := by
  constructor
  · have hfw : ∀ k i r, k < s.length → i < (groupAt s k).nComp →
        r < (groupAt s k).nRec →
        forwardVec K nCols u s (0 + offsetOf s k + i + (groupAt s k).nComp * r)
          = sumTo nCols (fun j => K (0 + k) i r j * u j) := by
      intro k i r hk hi hr
      simp only [Nat.zero_add]
      exact forwardVec_row K nCols u s k i r hk hi hr
    have hcore := adjoint_core K nCols u v s 0 0 (forwardVec K nCols u s) hfw
    have hl : sumTo (surveyND s)
        (fun p => forwardVec K nCols u s (0 + p) * v (0 + p))
        = sumTo (surveyND s) (fun p => forwardVec K nCols u s p * v p) := by
      apply sumTo_congr
      intro p _
      rw [Nat.zero_add]
    rw [hl] at hcore
    rw [hcore]
    apply sumTo_congr
    intro j _
    rw [gtDotV_eq_triple]
  · have h1 : ∀ p, p < surveyND s →
        dotCols nCols (sensitivityMatrix K s M0 p) u * v p
          = sumTo nCols (fun j => sensitivityMatrix K s M0 p j * u j * v p) := by
      intro p _
      rw [show dotCols nCols (sensitivityMatrix K s M0 p) u
          = sumTo nCols (fun j => sensitivityMatrix K s M0 p j * u j) from rfl]
      rw [← sumTo_mul_right]
    rw [sumTo_congr h1, sumTo_comm]
    apply sumTo_congr
    intro j _
    have h2 : ∀ p, p < surveyND s →
        sensitivityMatrix K s M0 p j * u j * v p
          = u j * (sensitivityMatrix K s M0 p j * v p) := by
      intro p _
      ring
    rw [sumTo_congr h2, sumTo_mul_left]

/-- Claim C5: in the assembled matrix and in the forward data vector, the row
holding (receiver `r`, component `i`) of group `k` is
`offsetOf s k + i + nComp * r` — the component index varies fastest, making
per-component rows a strided slice. -/
theorem claim5_row_layout (K : Kernel) (s : List ReceiverGroup) (M0 : ℕ → ℕ → ℚ)
    (nCols : ℕ) (m : ℕ → ℚ) (k i r j : ℕ) (hk : k < s.length)
    (hi : i < (groupAt s k).nComp) (hr : r < (groupAt s k).nRec) :
    sensitivityMatrix K s M0 (offsetOf s k + i + (groupAt s k).nComp * r) j
        = K k i r j
    ∧ forwardVec K nCols m s (offsetOf s k + i + (groupAt s k).nComp * r)
        = sumTo nCols (fun jj => K k i r jj * m jj) :=
  ⟨sensitivityMatrix_row K s M0 k i r hk hi hr j,
   forwardVec_row K nCols m s k i r hk hi hr⟩

/-- Witness for C5: the hand-computable layout of a 2-receiver, 2-component
survey at component 1, receiver 1 (row 3). -/
theorem claim5_witness :
    0 < exampleSurvey.length
    ∧ 1 < (groupAt exampleSurvey 0).nComp
    ∧ 1 < (groupAt exampleSurvey 0).nRec
    ∧ sensitivityMatrix exampleKernel exampleSurvey exampleInitMatrix
        (offsetOf exampleSurvey 0 + 1 + (groupAt exampleSurvey 0).nComp * 1) 0
      = exampleKernel 0 1 1 0
    ∧ forwardVec exampleKernel 2 exampleModel exampleSurvey
        (offsetOf exampleSurvey 0 + 1 + (groupAt exampleSurvey 0).nComp * 1)
      = sumTo 2 (fun jj => exampleKernel 0 1 1 jj * exampleModel jj) := by
  refine ⟨by decide, by decide, by decide, ?_, ?_⟩
  · exact (claim5_row_layout exampleKernel exampleSurvey exampleInitMatrix 2
      exampleModel 0 1 1 0 (by decide) (by decide) (by decide)).1
  · exact (claim5_row_layout exampleKernel exampleSurvey exampleInitMatrix 2
      exampleModel 0 1 1 0 (by decide) (by decide) (by decide)).2

/-- Claim C7: the `G` property raises exactly for
(`geoana`, `forward_only`), with the message directing the caller to another
storage mode or engine, and returns a representation for every other
pairing. -/
theorem claim7_g_property :
    gProperty Engine.geoana StoreSensitivities.forwardOnly
      = .error gForwardOnlyGeoanaMsg
    ∧ ∀ (e : Engine) (st : StoreSensitivities),
        ¬(e = Engine.geoana ∧ st = StoreSensitivities.forwardOnly) →
          ∃ rep, gProperty e st = .ok rep := by
  refine ⟨rfl, ?_⟩
  intro e st h
  cases e <;> cases st <;> first
    | exact ⟨_, rfl⟩
    | exact absurd ⟨rfl, rfl⟩ h

/-- Witness for C7 at (choclo, ram). -/
theorem claim7_witness :
    ¬(Engine.choclo = Engine.geoana
        ∧ StoreSensitivities.ram = StoreSensitivities.forwardOnly)
    ∧ ∃ rep, gProperty Engine.choclo StoreSensitivities.ram = .ok rep :=
  ⟨by decide, claim7_g_property.2 Engine.choclo StoreSensitivities.ram (by decide)⟩

/-- Counterexample to C8 as stated: with `is_amplitude_data = False`,
`engine="geoana"` and `store_sensitivities="forward_only"`, `getJ` does not
return a composition — it raises the `G`-property error. -/
theorem claim8_counterexample :
    (getJDispatch false Engine.geoana StoreSensitivities.forwardOnly).1
      = Except.error gForwardOnlyGeoanaMsg := rfl

/-- Claim C8 (amended): in amplitude mode `getJ` raises before any
sensitivity computation (the counter stays 0); otherwise it returns `G`
composed with the chi-mapping derivative — dense for stored `G`, a linear
operator for (choclo, forward_only) — except that (geoana, forward_only)
propagates the `G`-property error. -/
theorem claim8_amended :
    (∀ (e : Engine) (st : StoreSensitivities),
        getJDispatch true e st = (Except.error getJAmplitudeMsg, 0))
    ∧ (∀ (e : Engine) (st : StoreSensitivities),
        st ≠ StoreSensitivities.forwardOnly →
          (getJDispatch false e st).1 = Except.ok JRepr.denseTimesChiDeriv)
    ∧ (getJDispatch false Engine.choclo StoreSensitivities.forwardOnly).1
        = Except.ok JRepr.operatorTimesChiDeriv
    ∧ (getJDispatch false Engine.geoana StoreSensitivities.forwardOnly).1
        = Except.error gForwardOnlyGeoanaMsg := by
  refine ⟨?_, ?_, rfl, rfl⟩
  · intro e st
    rfl
  · intro e st h
    cases e <;> cases st <;> first | rfl | exact absurd rfl h

/-- Witness for C8 (amended) at (geoana, ram). -/
theorem claim8_witness :
    StoreSensitivities.ram ≠ StoreSensitivities.forwardOnly
    ∧ (getJDispatch false Engine.geoana StoreSensitivities.ram).1
        = Except.ok JRepr.denseTimesChiDeriv :=
  ⟨by decide, claim8_amended.2.1 Engine.geoana StoreSensitivities.ram (by decide)⟩

/-- Claim C10: `nD` is the survey datum count integer-divided by 3 in
amplitude mode and unchanged otherwise; for xyz-triplet surveys the division
is exact. -/
theorem claim10_nD (s : List ReceiverGroup) (h3 : ∀ g ∈ s, g.nComp = 3) :
    simulationND s true = surveyND s / 3
    ∧ simulationND s false = surveyND s
    ∧ 3 * simulationND s true = surveyND s := by
  refine ⟨rfl, rfl, ?_⟩
  have hdvd := surveyND_three_dvd s h3
  simp only [simulationND, if_pos]
  exact Nat.mul_div_cancel' hdvd

/-- Witness for C10 on an xyz survey with two receivers. -/
theorem claim10_witness :
    (∀ g ∈ c10Survey, g.nComp = 3)
    ∧ simulationND c10Survey true = surveyND c10Survey / 3
    ∧ simulationND c10Survey false = surveyND c10Survey
    ∧ 3 * simulationND c10Survey true = surveyND c10Survey := by
  have h := claim10_nD c10Survey (by decide)
  exact ⟨by decide, h.1, h.2.1, h.2.2⟩

/-- Claim C3, evaluated at the failing input: one receiver group requesting
two components (`["tmi", "bx"]`) for a single receiver, with weights
`(1, 0)`.  The streaming path — which passes the **unsliced** weights array
to every per-component accumulation, using the receiver-local index — weighs
both component rows with `w 0` and yields `1·1² + 1·2² = 5`, while the
einsum over the assembled matrix weighs row 1 with `w 1 = 0` and yields
`1·1² + 0·2² = 1`.  The two sides of the spec's diagonal identity differ. -/
theorem claim3_diagonal_discrepancy :
    gtgDiagonalWithoutBuildingG c3Kernel c3Survey c3Weights 0 = 5
    ∧ gtgDiagonalEinsum c3Kernel c3Survey (fun _ _ => 0) c3Weights 0 = 1
    ∧ gtgDiagonalWithoutBuildingG c3Kernel c3Survey c3Weights 0
        ≠ gtgDiagonalEinsum c3Kernel c3Survey (fun _ _ => 0) c3Weights 0 := by
  have h1 : gtgDiagonalWithoutBuildingG c3Kernel c3Survey c3Weights 0 = 5 := by
    have e1 : gtgDiagonalWithoutBuildingG c3Kernel c3Survey c3Weights 0
        = ((fun _ : ℕ => (0 : ℚ)) 0
            + sumTo 1 (fun r => c3Weights r * (c3Kernel 0 0 r 0 * c3Kernel 0 0 r 0)))
          + sumTo 1 (fun r => c3Weights r * (c3Kernel 0 1 r 0 * c3Kernel 0 1 r 0)) := rfl
    rw [e1]
    simp only [sumTo]
    norm_num [c3Weights, c3Kernel]
  have hg0 : sensitivityMatrix c3Kernel c3Survey (fun _ _ => 0) 0 0
      = c3Kernel 0 0 0 0 := rfl
  have hg1 : sensitivityMatrix c3Kernel c3Survey (fun _ _ => 0) 1 0
      = c3Kernel 0 1 0 0 := rfl
  have h2 : gtgDiagonalEinsum c3Kernel c3Survey (fun _ _ => 0) c3Weights 0 = 1 := by
    have e3 : gtgDiagonalEinsum c3Kernel c3Survey (fun _ _ => 0) c3Weights 0
        = sumTo 2 (fun i => c3Weights i
            * (sensitivityMatrix c3Kernel c3Survey (fun _ _ => 0) i 0
              * sensitivityMatrix c3Kernel c3Survey (fun _ _ => 0) i 0)) := rfl
    rw [e3]
    simp only [sumTo]
    rw [hg0, hg1]
    norm_num [c3Weights, c3Kernel]
  refine ⟨h1, h2, ?_⟩
  rw [h1, h2]
  norm_num

/-- Claim C4: a second `getJtJdiag` call whose squared weights have the same
digest returns the cached result with the cache state untouched (the
accumulation counter does not move), while a call with a different digest
re-invokes the accumulation exactly once and replaces both the cached
diagonal and the stored digest. -/
theorem claim4_cache (getGtg : List ℚ → ℕ → ℚ) (chainRule : (ℕ → ℚ) → ℕ → ℚ)
    (st0 : JtJCache) (w w2 : List ℚ) (hne : w2 ≠ w) :
    getJtJdiagStep getGtg chainRule (getJtJdiagStep getGtg chainRule st0 w).2 w
      = getJtJdiagStep getGtg chainRule st0 w
    ∧ (getJtJdiagStep getGtg chainRule
        (getJtJdiagStep getGtg chainRule st0 w).2 w2).2.accumulationCount
      = (getJtJdiagStep getGtg chainRule st0 w).2.accumulationCount + 1
    ∧ (getJtJdiagStep getGtg chainRule
        (getJtJdiagStep getGtg chainRule st0 w).2 w2).2.weightsSha256 = some w2
    ∧ (getJtJdiagStep getGtg chainRule
        (getJtJdiagStep getGtg chainRule st0 w).2 w2).2.gtgDiagonal
      = some (getGtg w2) := by
  have hne2 : ¬(w = w2) := fun h => hne h.symm
  obtain ⟨dOpt, wOpt, c⟩ := st0
  cases dOpt with
  | none =>
    cases wOpt <;>
      exact ⟨by simp [getJtJdiagStep], by simp [getJtJdiagStep, hne2],
        by simp [getJtJdiagStep, hne2], by simp [getJtJdiagStep, hne2]⟩
  | some d =>
    cases wOpt with
    | none =>
      exact ⟨by simp [getJtJdiagStep], by simp [getJtJdiagStep, hne2],
        by simp [getJtJdiagStep, hne2], by simp [getJtJdiagStep, hne2]⟩
    | some w0 =>
      by_cases h : w0 = w
      · subst h
        exact ⟨by simp [getJtJdiagStep], by simp [getJtJdiagStep, hne2],
          by simp [getJtJdiagStep, hne2], by simp [getJtJdiagStep, hne2]⟩
      · exact ⟨by simp [getJtJdiagStep, h], by simp [getJtJdiagStep, h, hne2],
          by simp [getJtJdiagStep, h, hne2], by simp [getJtJdiagStep, h, hne2]⟩

/-- Witness for C4 from a fresh cache with weights `[1, 2]` then `[3]`. -/
theorem claim4_witness :
    c4WeightsB ≠ c4WeightsA
    ∧ (getJtJdiagStep c4GetGtg c4ChainRule
          (getJtJdiagStep c4GetGtg c4ChainRule c4InitialCache c4WeightsA).2 c4WeightsA
        = getJtJdiagStep c4GetGtg c4ChainRule c4InitialCache c4WeightsA
      ∧ (getJtJdiagStep c4GetGtg c4ChainRule
          (getJtJdiagStep c4GetGtg c4ChainRule c4InitialCache c4WeightsA).2
            c4WeightsB).2.accumulationCount
        = (getJtJdiagStep c4GetGtg c4ChainRule
            c4InitialCache c4WeightsA).2.accumulationCount + 1
      ∧ (getJtJdiagStep c4GetGtg c4ChainRule
          (getJtJdiagStep c4GetGtg c4ChainRule c4InitialCache c4WeightsA).2
            c4WeightsB).2.weightsSha256 = some c4WeightsB
      ∧ (getJtJdiagStep c4GetGtg c4ChainRule
          (getJtJdiagStep c4GetGtg c4ChainRule c4InitialCache c4WeightsA).2
            c4WeightsB).2.gtgDiagonal = some (c4GetGtg c4WeightsB)) :=
  ⟨by decide, claim4_cache c4GetGtg c4ChainRule c4InitialCache
    c4WeightsA c4WeightsB (by decide)⟩

/-- Claim C6: every component the geoana dispatch handles is evaluated as the
signed sum of the 8 corner-kernel values with the fixed pattern
(+, −, −, +, −, +, +, −), applied identically to the x, y and z kernel
triplets, and the resulting row is scaled by exactly `1 / (4π)` before being
returned — in both the scalar and the vector model branches. -/
theorem claim6_corner_stencil (ne : NodeEvals) (tmiProj M : Fin 3 → ℚ)
    (amplitude : ℚ) (c : String) (vx vy vz : Fin 8 → ℚ)
    (h : componentVals ne tmiProj c = some (vx, vy, vz)) :
    evaluateIntegralRowScalar ne tmiProj M c
      = .ok (((signedCornerSum vx * M 0 + signedCornerSum vy * M 1
          + signedCornerSum vz * M 2 : ℚ) : ℝ) * (1 / (4 * Real.pi)))
    ∧ evaluateIntegralRowVector ne tmiProj amplitude c
      = .ok (((signedCornerSum vx * amplitude : ℚ) : ℝ) * (1 / (4 * Real.pi)),
             ((signedCornerSum vy * amplitude : ℚ) : ℝ) * (1 / (4 * Real.pi)),
             ((signedCornerSum vz * amplitude : ℚ) : ℝ) * (1 / (4 * Real.pi))) := by
  constructor
  · have hred : evaluateIntegralRowScalar ne tmiProj M c
        = .ok (((cellEval vx * M 0 + cellEval vy * M 1 + cellEval vz * M 2 : ℚ) : ℝ)
          / (4 * Real.pi)) := by
      unfold evaluateIntegralRowScalar
      rw [h]
    rw [hred, cellEval_signed vx, cellEval_signed vy, cellEval_signed vz,
      div_eq_mul_inv, one_div]
  · have hred : evaluateIntegralRowVector ne tmiProj amplitude c
        = .ok (((cellEval vx * amplitude : ℚ) : ℝ) / (4 * Real.pi),
               ((cellEval vy * amplitude : ℚ) : ℝ) / (4 * Real.pi),
               ((cellEval vz * amplitude : ℚ) : ℝ) / (4 * Real.pi)) := by
      unfold evaluateIntegralRowVector
      rw [h]
    rw [hred, cellEval_signed vx, cellEval_signed vy, cellEval_signed vz,
      div_eq_mul_inv, div_eq_mul_inv, div_eq_mul_inv, one_div]

/-- Witness for C6 at the `"bx"` component with concrete corner values. -/
theorem claim6_witness :
    componentVals exampleNodeEvals exampleTmiProj "bx"
      = some (exampleNodeEvals.gxx, exampleNodeEvals.gxy, exampleNodeEvals.gxz)
    ∧ (evaluateIntegralRowScalar exampleNodeEvals exampleTmiProj
          exampleMagnetization "bx"
        = .ok (((signedCornerSum exampleNodeEvals.gxx * exampleMagnetization 0
            + signedCornerSum exampleNodeEvals.gxy * exampleMagnetization 1
            + signedCornerSum exampleNodeEvals.gxz * exampleMagnetization 2 : ℚ) : ℝ)
            * (1 / (4 * Real.pi)))
      ∧ evaluateIntegralRowVector exampleNodeEvals exampleTmiProj 3 "bx"
        = .ok (((signedCornerSum exampleNodeEvals.gxx * 3 : ℚ) : ℝ)
                 * (1 / (4 * Real.pi)),
               ((signedCornerSum exampleNodeEvals.gxy * 3 : ℚ) : ℝ)
                 * (1 / (4 * Real.pi)),
               ((signedCornerSum exampleNodeEvals.gxz * 3 : ℚ) : ℝ)
                 * (1 / (4 * Real.pi)))) :=
  ⟨rfl, claim6_corner_stencil exampleNodeEvals exampleTmiProj exampleMagnetization 3
    "bx" exampleNodeEvals.gxx exampleNodeEvals.gxy exampleNodeEvals.gxz rfl⟩

/-- Counterexample to C9 as stated: under the geoana `evaluate_integral`
path, an unsupported component does not raise a not-implemented error naming
the supported set — no dispatch branch assigns `vals_x`, so the call fails
with an `UnboundLocalError`. -/
theorem claim9_counterexample :
    evaluateIntegralRowScalar exampleNodeEvals exampleTmiProj
        exampleMagnetization "foo"
      = .error (.unboundLocalError "vals_x")
    ∧ evaluateIntegralRowScalar exampleNodeEvals exampleTmiProj
        exampleMagnetization "foo"
      ≠ .error (.notImplemented componentsNotImplementedMsg) := by
  refine ⟨rfl, ?_⟩
  intro hcontra
  have h1 : evaluateIntegralRowScalar exampleNodeEvals exampleTmiProj
      exampleMagnetization "foo" = .error (.unboundLocalError "vals_x") := rfl
  rw [h1] at hcontra
  simp at hcontra

/-- Claim C9 (amended): the four choclo operations all raise the
not-implemented error naming the supported set when any receiver group
requests a component outside the vocabulary; the geoana `evaluate_integral`
path performs no vocabulary check and fails with an unbound-local error
instead. -/
theorem claim9_amended :
    (∀ (K : Kernel) (nCols : ℕ) (m v w : ℕ → ℚ) (M0 : ℕ → ℕ → ℚ)
        (s : List ReceiverGroup),
        (∃ g ∈ s, componentsSupported g.components = false) →
          forwardChecked K nCols m s = .error componentsNotImplementedMsg
          ∧ sensitivityMatrixChecked K s M0 = .error componentsNotImplementedMsg
          ∧ gtDotVChecked K s v = .error componentsNotImplementedMsg
          ∧ gtgDiagChecked K s w = .error componentsNotImplementedMsg)
    ∧ (∀ (ne : NodeEvals) (tmiProj M : Fin 3 → ℚ) (c : String),
        componentVals ne tmiProj c = none →
          evaluateIntegralRowScalar ne tmiProj M c
            = .error (.unboundLocalError "vals_x")) := by
  constructor
  · intro K nCols m v w M0 s h
    have hc := checkSurveyComponents_error s h
    refine ⟨?_, ?_, ?_, ?_⟩ <;>
      simp [forwardChecked, sensitivityMatrixChecked, gtDotVChecked,
        gtgDiagChecked, hc, Except.map]
  · intro ne tmiProj M c h
    unfold evaluateIntegralRowScalar
    rw [h]

/-- Witness for C9 (amended) on a survey requesting the component `"foo"`. -/
theorem claim9_witness :
    (∃ g ∈ c9Survey, componentsSupported g.components = false)
    ∧ forwardChecked exampleKernel 2 exampleModel c9Survey
        = .error componentsNotImplementedMsg
    ∧ sensitivityMatrixChecked exampleKernel c9Survey exampleInitMatrix
        = .error componentsNotImplementedMsg
    ∧ gtDotVChecked exampleKernel c9Survey exampleModel
        = .error componentsNotImplementedMsg
    ∧ gtgDiagChecked exampleKernel c9Survey c3Weights
        = .error componentsNotImplementedMsg
    ∧ componentVals exampleNodeEvals exampleTmiProj "foo" = none
    ∧ evaluateIntegralRowScalar exampleNodeEvals exampleTmiProj
        exampleMagnetization "foo"
      = .error (.unboundLocalError "vals_x") := by
  have hex : ∃ g ∈ c9Survey, componentsSupported g.components = false := by decide
  have h4 := claim9_amended.1 exampleKernel 2 exampleModel exampleModel c3Weights
    exampleInitMatrix c9Survey hex
  exact ⟨hex, h4.1, h4.2.1, h4.2.2.1, h4.2.2.2, rfl,
    claim9_amended.2 exampleNodeEvals exampleTmiProj exampleMagnetization "foo" rfl⟩

end MagSim
